import Mathlib

/-!
Verification development for the `moogration` migration engine
(`moogration.go`).  The Go code is shallowly embedded: the persisted
`migration` table (the Ledger) is a list of records in insertion order,
the md5 hex digest is abstracted as a parameter `digest : String → String`
applied to the exact byte input the code builds, execution of a SQL script
against the store is abstracted as `exec : String → Bool` (whether
`db.Exec` succeeds), a `*log.Logger` is abstracted as a `logger : Bool`
presence flag together with an explicit list of emitted log entries, and a
Go `panic` is an `Except.error` carrying a `Fault`.
-/

namespace Moogration

/-- Embedding of the Go struct `Migration` (fields `Up`, `Down`, `Name`). -/
structure Migration where
  up : String
  down : String
  name : String
deriving DecidableEq, Repr

/-- One row of the persisted `migration` table: `name`, `sql_hash`, `batch`
(the `id` and `migrated_at` columns play no role in the logic). -/
structure LedgerRecord where
  name : String
  sqlHash : String
  batch : Int
deriving DecidableEq, Repr

/-- The `migration` table, rows in insertion (auto-increment id) order. -/
abbrev Ledger := List LedgerRecord

/-- Log lines the engine can emit through its optional logger. -/
inductive LogEntry where
  | registeredCount (n : Nat)
  | migrateUp (name : String)
  | migrateDown (name : String)
  | warnChanged (name : String)
  | errorFailed (name : String)
deriving DecidableEq, Repr

/-- Observable state threaded through a run: the ledger, the log lines
emitted so far, and the scripts handed to `db.Exec` so far. -/
structure RunState where
  ledger : Ledger
  logs : List LogEntry
  executed : List String
deriving DecidableEq, Repr

/-- The ways the Go code aborts (a `panic` or an early `return err`) or
faults.  `migrationFailed` carries the state at the moment of the panic,
since the database retains all mutations made before a Go panic. -/
inductive Fault where
  | queryFailure
  | migrationFailed (name : String) (down : Bool) (state : RunState)
  | panicHashChanged (name : String)
  | indexOutOfRange
deriving DecidableEq, Repr

/-- Outcome of a single-row query (`db.QueryRow(...).Scan(...)`): a row,
`sql.ErrNoRows`, or any other failure. -/
inductive RowResult (α : Type) where
  | found (x : α)
  | noRows
  | failure
deriving DecidableEq, Repr

/-- The byte string the Go code digests in `Migration.hash`:
`data := []byte(m.Up + m.Down)` — plain concatenation, no framing. -/
def hashInput (m : Migration) : String := m.up ++ m.down

/-- Embedding of `Migration.hash`: the md5 hex digest of `hashInput`,
with the digest function itself abstracted as `digest`. -/
def hashWith (digest : String → String) (m : Migration) : String :=
  digest (hashInput m)

/-- Embedding of the query `SELECT name, sql_hash FROM migration WHERE
name = ?` through `QueryRow`: the first matching row in table order, or
`noRows`.  The pure table never produces `RowResult.failure`; that
constructor models driver/connectivity failures of a real store. -/
def queryRowByName (ledger : Ledger) (name : String) :
    RowResult (String × String) :=
  match ledger.find? (fun r => r.name == name) with
  | some r => .found (r.name, r.sqlHash)
  | none => .noRows

/-- Embedding of `Migration.migrationStatus` given the outcome of its row
query: `ErrNoRows` yields `(false, false)`, any other scan failure panics,
and a found row yields `hasRun = true` and
`hasChanged = (dbHash != m.hash())`. -/
def migrationStatusCore (digest : String → String) (m : Migration) :
    RowResult (String × String) → Except Fault (Bool × Bool)
  | .noRows => .ok (false, false)
  | .failure => .error .queryFailure
  | .found (_, dbHash) => .ok (true, dbHash != hashWith digest m)

/-- Embedding of `Migration.setMigrationStatus` on the table: `down`
deletes every row with the migration's name, otherwise a row
`(name, hash, batch)` is inserted (appended, auto-increment id). -/
def setMigrationStatusLedger (digest : String → String) (down : Bool)
    (batch : Int) (ledger : Ledger) (m : Migration) : Ledger :=
  if down then ledger.filter (fun r => r.name != m.name)
  else ledger ++ [⟨m.name, hashWith digest m, batch⟩]

/-- Embedding of `latestBatch`: `SELECT MAX(batch) FROM migration` — `0`
for an empty table (the scan error path sets `batch = 0`), otherwise the
maximum recorded batch number. -/
def latestBatch : Ledger → Int
  | [] => 0
  | r :: rs =>
    match rs with
    | [] => r.batch
    | _ :: _ => max r.batch (latestBatch rs)

/-- Insertion step for sorting batch numbers descending. -/
def insertDescInt (x : Int) : List Int → List Int
  | [] => [x]
  | y :: ys => if y ≤ x then x :: y :: ys else y :: insertDescInt x ys

/-- Sort a list of batch numbers descending (`ORDER BY batch DESC`). -/
def sortDescInt (l : List Int) : List Int := l.foldr insertDescInt []

/-- Embedding of `allBatches`: `SELECT DISTINCT batch FROM migration
ORDER BY batch DESC`. -/
def allBatches (ledger : Ledger) : List Int :=
  sortDescInt ((ledger.map (·.batch)).dedup)

/-- Rows of one batch in table order (`SELECT name, sql_hash FROM
migration WHERE batch = ?`). -/
def batchRows (ledger : Ledger) (batchID : Int) : List LedgerRecord :=
  ledger.filter (fun r => r.batch == batchID)

/-- The comparison closure passed to `sort.Slice` in `RunLatest`:
descending by name when running down migrations, ascending otherwise. -/
def goLess (down : Bool) (a b : Migration) : Bool :=
  if down then decide (b.name < a.name) else decide (a.name < b.name)

/-- Contract of Go's `sort.Slice` with the comparison `goLess down`: the
output is a permutation of the input in which no element is strictly less
than an earlier one.  `sort.Slice` documents exactly this and explicitly
does NOT guarantee stability, so the embedding is this relation rather
than one particular algorithm. -/
def SortSpecGo (down : Bool) (input output : List Migration) : Prop :=
  output.Perm input ∧ output.Pairwise (fun a b => goLess down b a = false)

/-- One iteration of the `for _, m := range registeredMigrations` loop of
`RunLatest`: query status; in a forward run skip an already-run
migration; warn (when drifted, `!force`, logger present); log and execute
the selected script; on failure either log-and-continue (`force`) or
panic; finally `setMigrationStatus` — the source calls it even when the
script failed and `force` let the loop continue. -/
def runStep (digest : String → String) (exec : String → Bool)
    (down force logger : Bool) (currentBatch : Int)
    (st : RunState) (m : Migration) : Except Fault RunState :=
  match migrationStatusCore digest m (queryRowByName st.ledger m.name) with
  | .error e => .error e
  | .ok (hasRun, hasChanged) =>
    if hasRun && !down then .ok st
    else
      let st1 := if hasChanged && !force && logger
        then { st with logs := st.logs ++ [.warnChanged m.name] } else st
      let script := if down then m.down else m.up
      let st2 : RunState := { st1 with
        logs := st1.logs ++
          (if logger then [if down then .migrateDown m.name else .migrateUp m.name] else []),
        executed := st1.executed ++ [script] }
      if exec script then
        .ok { st2 with
          ledger := setMigrationStatusLedger digest down currentBatch st2.ledger m }
      else if force then
        let st3 := if logger
          then { st2 with logs := st2.logs ++ [.errorFailed m.name] } else st2
        .ok { st3 with
          ledger := setMigrationStatusLedger digest down currentBatch st3.ledger m }
      else .error (.migrationFailed m.name down st2)

/-- The migration loop of `RunLatest`, over the sorted registry. -/
def runList (digest : String → String) (exec : String → Bool)
    (down force logger : Bool) (currentBatch : Int) :
    List Migration → RunState → Except Fault RunState
  | [], st => .ok st
  | m :: ms, st =>
    match runStep digest exec down force logger currentBatch st m with
    | .error e => .error e
    | .ok st' => runList digest exec down force logger currentBatch ms st'

/-- Embedding of `RunLatest` after the registry has been sorted: ensure
the ledger table (a no-op on the pure table), compute
`currentBatch = latestBatch + 1`, log the registered count, and run the
loop.  `order` is the sorted registry (`sort.Slice` output). -/
def runLatest (digest : String → String) (exec : String → Bool)
    (down force logger : Bool) (order : List Migration) (ledger : Ledger) :
    Except Fault RunState :=
  let currentBatch := latestBatch ledger + 1
  runList digest exec down force logger currentBatch order
    ⟨ledger, if logger then [.registeredCount order.length] else [], []⟩

/-- Inner loop of `rollbackOneBatch` over `registeredMigrations` for one
ledger row: for each registered migration whose name matches the row,
either (hash ok or `force`) run the down script — the source discards
`migration.run`'s error, and deletes nothing from the ledger — or panic
on a hash mismatch. -/
def rollbackRegs (digest : String → String) (force logger : Bool)
    (rec : LedgerRecord) :
    List Migration → RunState → Except Fault RunState
  | [], st => .ok st
  | m :: ms, st =>
    if m.name == rec.name then
      if force || hashWith digest m == rec.sqlHash then
        let st' : RunState := { st with
          logs := st.logs ++ (if logger then [.migrateDown m.name] else []),
          executed := st.executed ++ [m.down] }
        rollbackRegs digest force logger rec ms st'
      else .error (.panicHashChanged m.name)
    else rollbackRegs digest force logger rec ms st

/-- Outer loop of `rollbackOneBatch` over the rows of the batch. -/
def rollbackRows (digest : String → String) (regs : List Migration)
    (force logger : Bool) :
    List LedgerRecord → RunState → Except Fault RunState
  | [], st => .ok st
  | rec :: rest, st =>
    match rollbackRegs digest force logger rec regs st with
    | .error e => .error e
    | .ok st' => rollbackRows digest regs force logger rest st'

/-- Embedding of `rollbackOneBatch`. -/
def rollbackOneBatch (digest : String → String) (regs : List Migration)
    (force logger : Bool) (batchID : Int) (st : RunState) :
    Except Fault RunState :=
  rollbackRows digest regs force logger (batchRows st.ledger batchID) st

/-- The loop of `Rollback`: `for i := 0; i < numBatches-1; i++` with the
body `batch := batches[i]; rollbackOneBatch(...)`.  `i` is the next index
and the second argument counts the remaining iterations; indexing past
the end of `batches` is the out-of-range fault of `batches[i]`. -/
def rollbackLoop (digest : String → String) (regs : List Migration)
    (force logger : Bool) (batches : List Int) :
    Nat → Nat → RunState → Except Fault RunState
  | _, 0, st => .ok st
  | i, r + 1, st =>
    match batches[i]? with
    | none => .error .indexOutOfRange
    | some b =>
      match rollbackOneBatch digest regs force logger b st with
      | .error e => .error e
      | .ok st' => rollbackLoop digest regs force logger batches (i + 1) r st'

/-- Embedding of `Rollback`: fetch `allBatches` and run the loop for
`numBatches - 1` iterations (the source's loop bound). -/
def Rollback (digest : String → String) (regs : List Migration)
    (ledger : Ledger) (numBatches : Int) (force logger : Bool) :
    Except Fault RunState :=
  rollbackLoop digest regs force logger (allBatches ledger) 0
    (numBatches - 1).toNat ⟨ledger, [], []⟩

/-! ### Helper lemmas about `latestBatch` -/

theorem latestBatch_cons (r : LedgerRecord) (rs : Ledger) (h : rs ≠ []) :
    latestBatch (r :: rs) = max r.batch (latestBatch rs) := by
  cases rs with
  | nil => exact absurd rfl h
  | cons b t => rfl

theorem latestBatch_le (l : Ledger) : ∀ r ∈ l, r.batch ≤ latestBatch l := by
  induction l with
  | nil => intro r hr; simp at hr
  | cons a rs ih =>
    intro r hr
    cases rs with
    | nil =>
      have : r = a := by simpa using hr
      subst this; exact le_refl _
    | cons b t =>
      rw [latestBatch_cons _ _ (by simp)]
      rcases List.mem_cons.mp hr with h | h
      · subst h; exact le_max_left _ _
      · exact le_trans (ih r h) (le_max_right _ _)

theorem latestBatch_mem (l : Ledger) (h : l ≠ []) :
    ∃ r ∈ l, r.batch = latestBatch l := by
  induction l with
  | nil => exact absurd rfl h
  | cons a rs ih =>
    cases rs with
    | nil => exact ⟨a, by simp, rfl⟩
    | cons b t =>
      obtain ⟨r, hr, hb⟩ := ih (by simp)
      rw [latestBatch_cons _ _ (by simp)]
      rcases le_total a.batch (latestBatch (b :: t)) with hle | hle
      · exact ⟨r, by simp [hr], by rw [hb, max_eq_right hle]⟩
      · exact ⟨a, by simp, by rw [max_eq_left hle]⟩

theorem latestBatch_append (a b : Ledger) (ha : a ≠ []) (hb : b ≠ []) :
    latestBatch (a ++ b) = max (latestBatch a) (latestBatch b) := by
  induction a with
  | nil => exact absurd rfl ha
  | cons x xs ih =>
    cases xs with
    | nil =>
      rw [List.cons_append, List.nil_append, latestBatch_cons _ _ hb]
      rfl
    | cons y ys =>
      rw [List.cons_append,
        latestBatch_cons x ((y :: ys) ++ b) (by simp),
        ih (by simp), latestBatch_cons x (y :: ys) (by simp), max_assoc]

theorem latestBatch_const (l : Ledger) (c : Int) (h : l ≠ [])
    (hc : ∀ r ∈ l, r.batch = c) : latestBatch l = c := by
  induction l with
  | nil => exact absurd rfl h
  | cons a rs ih =>
    cases rs with
    | nil => simpa using hc a (by simp)
    | cons b t =>
      rw [latestBatch_cons _ _ (by simp),
        hc a (by simp), ih (by simp) (fun r hr => hc r (by simp [hr])),
        max_self]

/-! ### Helper lemmas about forward `runStep` / `runList` -/

theorem runStep_forward_found (digest : String → String) (exec : String → Bool)
    (force logger : Bool) (cb : Int) (st : RunState) (m : Migration)
    (r : LedgerRecord)
    (h : st.ledger.find? (fun x => x.name == m.name) = some r) :
    runStep digest exec false force logger cb st m = .ok st := by
  simp [runStep, queryRowByName, migrationStatusCore, h]

/-- Explicit form of a forward step on a migration with no ledger row. -/
theorem runStep_forward_not_found (digest : String → String)
    (exec : String → Bool) (force logger : Bool) (cb : Int)
    (st : RunState) (m : Migration)
    (h : st.ledger.find? (fun x => x.name == m.name) = none) :
    runStep digest exec false force logger cb st m =
      if exec m.up then
        .ok ⟨st.ledger ++ [⟨m.name, hashWith digest m, cb⟩],
             st.logs ++ (if logger then [.migrateUp m.name] else []),
             st.executed ++ [m.up]⟩
      else if force then
        .ok ⟨st.ledger ++ [⟨m.name, hashWith digest m, cb⟩],
             (st.logs ++ (if logger then [.migrateUp m.name] else [])) ++
               (if logger then [.errorFailed m.name] else []),
             st.executed ++ [m.up]⟩
      else
        .error (.migrationFailed m.name false
          ⟨st.ledger,
           st.logs ++ (if logger then [.migrateUp m.name] else []),
           st.executed ++ [m.up]⟩) := by
  cases logger <;> by_cases hex : exec m.up <;> cases force <;>
    simp [runStep, queryRowByName, h, migrationStatusCore,
      setMigrationStatusLedger, hex]

/-- Anatomy of a successful forward step: either the migration was
already recorded and the state is untouched, or a record with the current
batch number is appended and only benign log lines are added. -/
theorem runStep_forward_ok_anatomy (digest : String → String)
    (exec : String → Bool) (force logger : Bool) (cb : Int)
    (st st' : RunState) (m : Migration)
    (h : runStep digest exec false force logger cb st m = .ok st') :
    (st' = st ∧ ∃ r ∈ st.ledger, r.name = m.name) ∨
    (st'.ledger = st.ledger ++ [⟨m.name, hashWith digest m, cb⟩] ∧
      ∃ lg, st'.logs = st.logs ++ lg ∧ ∀ n, LogEntry.warnChanged n ∉ lg) := by
  cases hf : st.ledger.find? (fun x => x.name == m.name) with
  | some r =>
    rw [runStep_forward_found digest exec force logger cb st m r hf] at h
    refine .inl ⟨(Except.ok.injEq _ _ |>.mp h).symm, r,
      List.mem_of_find?_eq_some hf, ?_⟩
    have := List.find?_some hf
    exact eq_of_beq (by simpa using this)
  | none =>
    rw [runStep_forward_not_found digest exec force logger cb st m hf] at h
    by_cases hex : exec m.up
    · rw [if_pos hex] at h
      injection h with h
      subst h
      refine .inr ⟨rfl, (if logger then [.migrateUp m.name] else []), rfl, ?_⟩
      intro n
      cases logger <;> simp
    · rw [if_neg hex] at h
      by_cases hfo : force
      · rw [if_pos hfo] at h
        injection h with h
        subst h
        refine .inr ⟨rfl, (if logger then [.migrateUp m.name] else []) ++
          (if logger then [.errorFailed m.name] else []),
          by rw [List.append_assoc], ?_⟩
        intro n
        cases logger <;> simp
      · rw [if_neg hfo] at h
        exact absurd h (by simp)

theorem runStep_forward_all_exec_ok (digest : String → String)
    (exec : String → Bool) (force logger : Bool) (cb : Int)
    (st : RunState) (m : Migration) (hexec : ∀ s, exec s = true) :
    ∃ st', runStep digest exec false force logger cb st m = .ok st' := by
  cases hf : st.ledger.find? (fun x => x.name == m.name) with
  | some r => exact ⟨st, runStep_forward_found digest exec force logger cb st m r hf⟩
  | none =>
    rw [runStep_forward_not_found digest exec force logger cb st m hf,
      if_pos (hexec m.up)]
    exact ⟨_, rfl⟩

theorem runList_forward_ledger_ext (digest : String → String)
    (exec : String → Bool) (force logger : Bool) (cb : Int) :
    ∀ (ms : List Migration) (st st' : RunState),
      runList digest exec false force logger cb ms st = .ok st' →
      ∃ ext, st'.ledger = st.ledger ++ ext ∧ ∀ r ∈ ext, r.batch = cb := by
  intro ms
  induction ms with
  | nil =>
    intro st st' h
    simp only [runList] at h
    exact ⟨[], by simp [← Except.ok.injEq _ _ |>.mp h], by simp⟩
  | cons m ms ih =>
    intro st st' h
    simp only [runList] at h
    cases hs : runStep digest exec false force logger cb st m with
    | error e => rw [hs] at h; exact absurd h (by simp)
    | ok st1 =>
      rw [hs] at h
      obtain ⟨ext2, he2, hb2⟩ := ih st1 st' h
      rcases runStep_forward_ok_anatomy digest exec force logger cb st st1 m hs with
        ⟨heq, -⟩ | ⟨hl, -⟩
      · subst heq; exact ⟨ext2, he2, hb2⟩
      · refine ⟨⟨m.name, hashWith digest m, cb⟩ :: ext2, ?_, ?_⟩
        · rw [he2, hl, List.append_assoc]; rfl
        · intro r hr
          rcases List.mem_cons.mp hr with h | h
          · subst h; rfl
          · exact hb2 r h

theorem runList_forward_logs_no_warn (digest : String → String)
    (exec : String → Bool) (force logger : Bool) (cb : Int) :
    ∀ (ms : List Migration) (st st' : RunState) (n : String),
      runList digest exec false force logger cb ms st = .ok st' →
      LogEntry.warnChanged n ∉ st.logs → LogEntry.warnChanged n ∉ st'.logs := by
  intro ms
  induction ms with
  | nil =>
    intro st st' n h hn
    simp only [runList] at h
    rw [← Except.ok.injEq _ _ |>.mp h]; exact hn
  | cons m ms ih =>
    intro st st' n h hn
    simp only [runList] at h
    cases hs : runStep digest exec false force logger cb st m with
    | error e => rw [hs] at h; exact absurd h (by simp)
    | ok st1 =>
      rw [hs] at h
      refine ih st1 st' n h ?_
      rcases runStep_forward_ok_anatomy digest exec force logger cb st st1 m hs with
        ⟨heq, -⟩ | ⟨-, lg, hl, hlg⟩
      · subst heq; exact hn
      · rw [hl]
        intro hmem
        rcases List.mem_append.mp hmem with h | h
        · exact hn h
        · exact hlg n h

theorem runList_forward_all_exec_ok (digest : String → String)
    (exec : String → Bool) (force logger : Bool) (cb : Int)
    (hexec : ∀ s, exec s = true) :
    ∀ (ms : List Migration) (st : RunState),
      ∃ st', runList digest exec false force logger cb ms st = .ok st' := by
  intro ms
  induction ms with
  | nil => intro st; exact ⟨st, rfl⟩
  | cons m ms ih =>
    intro st
    obtain ⟨st1, hs⟩ :=
      runStep_forward_all_exec_ok digest exec force logger cb st m hexec
    obtain ⟨st', h⟩ := ih st1
    exact ⟨st', by simp only [runList, hs, h]⟩

theorem runList_forward_records (digest : String → String)
    (exec : String → Bool) (force logger : Bool) (cb : Int) :
    ∀ (ms : List Migration) (st st' : RunState),
      runList digest exec false force logger cb ms st = .ok st' →
      ∀ m ∈ ms, ∃ r ∈ st'.ledger, r.name = m.name := by
  intro ms
  induction ms with
  | nil => intro st st' _ m hm; simp at hm
  | cons m0 ms ih =>
    intro st st' h m hm
    simp only [runList] at h
    cases hs : runStep digest exec false force logger cb st m0 with
    | error e => rw [hs] at h; exact absurd h (by simp)
    | ok st1 =>
      rw [hs] at h
      rcases List.mem_cons.mp hm with hm0 | hms
      · subst hm0
        obtain ⟨ext2, he2, -⟩ :=
          runList_forward_ledger_ext digest exec force logger cb ms st1 st' h
        rcases runStep_forward_ok_anatomy digest exec force logger cb st st1 m hs with
          ⟨heq, r, hr, hname⟩ | ⟨hl, -⟩
        · subst heq
          exact ⟨r, by rw [he2]; exact List.mem_append.mpr (.inl hr), hname⟩
        · refine ⟨⟨m.name, hashWith digest m, cb⟩, ?_, rfl⟩
          rw [he2, hl]
          simp
      · exact ih st1 st' h m hms

theorem runList_forward_skip_all (digest : String → String)
    (exec : String → Bool) (force logger : Bool) (cb : Int) :
    ∀ (ms : List Migration) (st : RunState),
      (∀ m ∈ ms, ∃ r ∈ st.ledger, r.name = m.name) →
      runList digest exec false force logger cb ms st = .ok st := by
  intro ms
  induction ms with
  | nil => intro st _; rfl
  | cons m ms ih =>
    intro st hall
    obtain ⟨r, hr, hname⟩ := hall m (by simp)
    have hsome : (st.ledger.find? (fun x => x.name == m.name)).isSome := by
      rw [List.find?_isSome]
      exact ⟨r, hr, by simp [hname]⟩
    obtain ⟨r', hr'⟩ := Option.isSome_iff_exists.mp hsome
    simp only [runList,
      runStep_forward_found digest exec force logger cb st m r' hr']
    exact ih st (fun m' hm' => hall m' (by simp [hm']))

/-! ### Helper lemmas about rollback -/

theorem rollbackRegs_error_shape (digest : String → String)
    (force logger : Bool) (rec : LedgerRecord) :
    ∀ (regs : List Migration) (st : RunState) (e : Fault),
      rollbackRegs digest force logger rec regs st = .error e →
      ∃ n, e = .panicHashChanged n := by
  intro regs
  induction regs with
  | nil => intro st e h; exact absurd h (by simp [rollbackRegs])
  | cons m ms ih =>
    intro st e h
    simp only [rollbackRegs] at h
    by_cases hn : (m.name == rec.name) = true
    · rw [if_pos hn] at h
      by_cases hh : (force || hashWith digest m == rec.sqlHash) = true
      · rw [if_pos hh] at h
        exact ih _ e h
      · rw [if_neg hh] at h
        exact ⟨m.name, ((Except.error.injEq _ _).mp h).symm⟩
    · rw [if_neg hn] at h
      exact ih st e h

theorem rollbackRegs_force_ok (digest : String → String) (logger : Bool)
    (rec : LedgerRecord) :
    ∀ (regs : List Migration) (st : RunState),
      ∃ st', rollbackRegs digest true logger rec regs st = .ok st' := by
  intro regs
  induction regs with
  | nil => intro st; exact ⟨st, rfl⟩
  | cons m ms ih =>
    intro st
    simp only [rollbackRegs, Bool.true_or, if_true]
    by_cases hn : (m.name == rec.name) = true
    · rw [if_pos hn]; exact ih _
    · rw [if_neg hn]; exact ih st

theorem rollbackRegs_mismatch (digest : String → String) (logger : Bool)
    (rec : LedgerRecord) :
    ∀ (regs : List Migration) (st : RunState),
      (∃ m ∈ regs, m.name = rec.name ∧ hashWith digest m ≠ rec.sqlHash) →
      ∃ n, rollbackRegs digest false logger rec regs st =
        .error (.panicHashChanged n) := by
  intro regs
  induction regs with
  | nil => intro st h; simp at h
  | cons m0 ms ih =>
    intro st ⟨m, hm, hname, hhash⟩
    simp only [rollbackRegs, Bool.false_or]
    by_cases hn : (m0.name == rec.name) = true
    · rw [if_pos hn]
      by_cases hh : (hashWith digest m0 == rec.sqlHash) = true
      · rw [if_pos hh]
        rcases List.mem_cons.mp hm with rfl | hms
        · exact absurd (eq_of_beq hh) hhash
        · exact ih _ ⟨m, hms, hname, hhash⟩
      · rw [if_neg hh]
        exact ⟨m0.name, rfl⟩
    · rw [if_neg hn]
      rcases List.mem_cons.mp hm with rfl | hms
      · exact absurd (beq_iff_eq.mpr hname) hn
      · exact ih st ⟨m, hms, hname, hhash⟩

theorem rollbackRows_force_ok (digest : String → String)
    (regs : List Migration) (logger : Bool) :
    ∀ (rows : List LedgerRecord) (st : RunState),
      ∃ st', rollbackRows digest regs true logger rows st = .ok st' := by
  intro rows
  induction rows with
  | nil => intro st; exact ⟨st, rfl⟩
  | cons rec rest ih =>
    intro st
    obtain ⟨st1, h1⟩ := rollbackRegs_force_ok digest logger rec regs st
    obtain ⟨st', h'⟩ := ih st1
    exact ⟨st', by simp only [rollbackRows, h1, h']⟩

theorem rollbackRows_mismatch (digest : String → String)
    (regs : List Migration) (logger : Bool) :
    ∀ (rows : List LedgerRecord) (st : RunState),
      (∃ rec ∈ rows, ∃ m ∈ regs, m.name = rec.name ∧
        hashWith digest m ≠ rec.sqlHash) →
      ∃ n, rollbackRows digest regs false logger rows st =
        .error (.panicHashChanged n) := by
  intro rows
  induction rows with
  | nil => intro st h; simp at h
  | cons rec0 rest ih =>
    intro st ⟨rec, hrec, hcond⟩
    simp only [rollbackRows]
    cases hr : rollbackRegs digest false logger rec0 regs st with
    | error e =>
      obtain ⟨n, rfl⟩ := rollbackRegs_error_shape digest false logger rec0 regs st e hr
      exact ⟨n, rfl⟩
    | ok st1 =>
      rcases List.mem_cons.mp hrec with rfl | hrest
      · obtain ⟨n, hn⟩ := rollbackRegs_mismatch digest logger rec regs st hcond
        rw [hr] at hn
        exact absurd hn (by simp)
      · obtain ⟨n, hn⟩ := ih st1 ⟨rec, hrest, hcond⟩
        exact ⟨n, hn⟩

theorem rollbackOneBatch_force_ok (digest : String → String)
    (regs : List Migration) (logger : Bool) (b : Int) (st : RunState) :
    ∃ st', rollbackOneBatch digest regs true logger b st = .ok st' :=
  rollbackRows_force_ok digest regs logger (batchRows st.ledger b) st

theorem rollbackLoop_ok_le (digest : String → String)
    (regs : List Migration) (force logger : Bool) (batches : List Int) :
    ∀ (r i : Nat) (st st' : RunState),
      rollbackLoop digest regs force logger batches i r st = .ok st' →
      r = 0 ∨ i + r ≤ batches.length := by
  intro r
  induction r with
  | zero => intro i st st' _; exact .inl rfl
  | succ r ih =>
    intro i st st' h
    simp only [rollbackLoop] at h
    cases hg : batches[i]? with
    | none => rw [hg] at h; exact absurd h (by simp)
    | some b =>
      simp only [hg] at h
      have hi : i < batches.length := by
        by_contra hcon
        rw [List.getElem?_eq_none (Nat.le_of_not_lt hcon)] at hg
        exact absurd hg (by simp)
      cases ho : rollbackOneBatch digest regs force logger b st with
      | error e => simp only [ho] at h; exact absurd h (by simp)
      | ok st1 =>
        simp only [ho] at h
        rcases ih (i + 1) st1 st' h with rfl | hle
        · exact .inr (by omega)
        · exact .inr (by omega)

theorem rollbackLoop_force_oob (digest : String → String)
    (regs : List Migration) (logger : Bool) (batches : List Int) :
    ∀ (r i : Nat) (st : RunState), 1 ≤ r → batches.length < i + r →
      rollbackLoop digest regs true logger batches i r st =
        .error .indexOutOfRange := by
  intro r
  induction r with
  | zero => intro i st h1 _; exact absurd h1 (by omega)
  | succ r ih =>
    intro i st _ hlen
    simp only [rollbackLoop]
    cases hg : batches[i]? with
    | none => rfl
    | some b =>
      have hi : i < batches.length := by
        rcases List.getElem?_eq_some.mp hg with ⟨hlt, -⟩
        exact hlt
      obtain ⟨st1, h1⟩ := rollbackOneBatch_force_ok digest regs logger b st
      simp only [h1]
      exact ih (i + 1) st1 (by omega) (by omega)

/-! ### Claim theorems -/

/-- C1.  Evaluation at the failing input.  With `force = true` and a
failing script, `RunLatest` logs the error and continues — but, contrary
to the claim, it still calls `setMigrationStatus`, so a ledger record IS
inserted for the failed migration (first conjunct: the failed
`001_a` ends up recorded with batch 1).  With `force = false` the run
aborts at once and the ledger holds only what was completed before the
failure (second conjunct: the carried panic state has an empty ledger). -/
theorem runLatest_force_failure_still_records :
    runLatest (fun s => s) (fun _ => false) false true true
        [⟨"U", "D", "001_a"⟩] [] =
      .ok ⟨[⟨"001_a", "UD", 1⟩],
        [.registeredCount 1, .migrateUp "001_a", .errorFailed "001_a"],
        ["U"]⟩ ∧
    runLatest (fun s => s) (fun _ => false) false false true
        [⟨"U", "D", "001_a"⟩] [] =
      .error (.migrationFailed "001_a" false
        ⟨[], [.registeredCount 1, .migrateUp "001_a"], ["U"]⟩) := by
  constructor <;> rfl

/-- C2.  Evaluation at the failing input.  Rolling back batch 2, whose
single record matches registered migration `002_b` with a verified hash,
executes the down script (`executed = ["D2"]`) but — contrary to the
claim and to the repository's own `TestRollback` expectations — deletes
nothing: the `LedgerRecord` is still present afterward, so the migration
is still considered applied.  The source of `rollbackOneBatch` contains
no delete of the ledger row. -/
theorem rollbackOneBatch_executes_down_but_keeps_record :
    rollbackOneBatch (fun s => s) [⟨"U2", "D2", "002_b"⟩] false true 2
        ⟨[⟨"002_b", "U2D2", 2⟩], [], []⟩ =
      .ok ⟨[⟨"002_b", "U2D2", 2⟩], [.migrateDown "002_b"], ["D2"]⟩ := by
  rfl

/-- C3.  Evaluation at the failing input — the scenario of the
repository's `TestRollback`: two applied batches, `Rollback` asked for
`numBatches = 1`.  The loop `for i := 0; i < numBatches-1` performs zero
iterations, so nothing is executed and the ledger is untouched;
`latestBatch` stays 2.  The test asserts `latestBatch = 1` and
`hasRun(002) = false` afterward, so the code contradicts its own test
(and the claim, which requires the most recent batch's records to be
removed). -/
theorem rollback_requested_one_rolls_back_zero :
    Rollback (fun s => s) [⟨"U1", "D1", "001_a"⟩, ⟨"U2", "D2", "002_b"⟩]
        [⟨"001_a", "U1D1", 1⟩, ⟨"002_b", "U2D2", 2⟩] 1 false true =
      .ok ⟨[⟨"001_a", "U1D1", 1⟩, ⟨"002_b", "U2D2", 2⟩], [], []⟩ ∧
    latestBatch [⟨"001_a", "U1D1", 1⟩, ⟨"002_b", "U2D2", 2⟩] = 2 := by
  constructor <;> rfl

/-- C5 counterexample.  The digest input is the plain concatenation
`up ++ down`, so the two distinct pairs `("ab", "")` and `("a", "b")`
produce the same digest input — the framing is ambiguous, refuting the
claim that distinct pairs always yield distinct digest inputs. -/
theorem hashInput_collision :
    hashInput ⟨"ab", "", "001_x"⟩ = hashInput ⟨"a", "b", "001_x"⟩ ∧
    Migration.mk "ab" "" "001_x" ≠ Migration.mk "a" "b" "001_x" := by
  constructor
  · rfl
  · decide

/-- C5 amended.  The digest input is the unframed concatenation
`upScript ++ downScript`: any two definitions whose concatenations agree
feed the digest identical input and therefore hash equal under every
digest function, and such pairs exist with distinct `(up, down)`
components — the framing is ambiguous. -/
theorem hash_framing_ambiguous :
    ∀ (digest : String → String) (m1 m2 : Migration),
      (hashInput m1 = hashInput m2 →
        hashWith digest m1 = hashWith digest m2) ∧
      ∃ a b : Migration,
        (a.up, a.down) ≠ (b.up, b.down) ∧ hashInput a = hashInput b := by
  intro digest m1 m2
  refine ⟨fun h => by rw [hashWith, hashWith, h], ?_⟩
  exact ⟨⟨"ab", "", "x"⟩, ⟨"a", "b", "x"⟩, by decide, rfl⟩

/-- C5 witness: the amended theorem applied to the identity digest and a
concrete colliding pair. -/
theorem hash_framing_ambiguous_witness :
    hashWith (fun s => s) ⟨"ab", "", "x"⟩ = hashWith (fun s => s) ⟨"a", "b", "x"⟩ :=
  (hash_framing_ambiguous (fun s => s) ⟨"ab", "", "x"⟩ ⟨"a", "b", "x"⟩).1 rfl

/-- C6.  `migrationStatus`: when no ledger row with the definition's name
exists the status is `(hasRun = false, hasDrifted = false)`; when a row
exists it is `hasRun = true` with `hasDrifted` exactly when the stored
hash differs from the hash computed from the definition; and a lookup
failure other than not-found is fatal (the scan of any other error
panics). -/
theorem migrationStatus_spec :
    ∀ (digest : String → String) (ledger : Ledger) (m : Migration),
      (ledger.find? (fun r => r.name == m.name) = none →
        migrationStatusCore digest m (queryRowByName ledger m.name) =
          .ok (false, false)) ∧
      (∀ rec, ledger.find? (fun r => r.name == m.name) = some rec →
        migrationStatusCore digest m (queryRowByName ledger m.name) =
          .ok (true, rec.sqlHash != hashWith digest m)) ∧
      migrationStatusCore digest m .failure = .error .queryFailure := by
  intro digest ledger m
  refine ⟨?_, ?_, rfl⟩
  · intro h
    simp [queryRowByName, h, migrationStatusCore]
  · intro rec h
    simp [queryRowByName, h, migrationStatusCore]

/-- C6 witness: the three cases at concrete inputs — a present record
with a drifted hash, a present record with a matching hash, and an
absent record. -/
theorem migrationStatus_spec_witness :
    migrationStatusCore (fun s => s) ⟨"U", "D", "001_a"⟩
        (queryRowByName [⟨"001_a", "STALE", 1⟩] "001_a") = .ok (true, true) ∧
    migrationStatusCore (fun s => s) ⟨"U", "D", "001_a"⟩
        (queryRowByName [⟨"001_a", "UD", 1⟩] "001_a") = .ok (true, false) ∧
    migrationStatusCore (fun s => s) ⟨"U", "D", "001_a"⟩
        (queryRowByName [] "001_a") = .ok (false, false) := by
  refine ⟨?_, ?_, ?_⟩
  · have h := (migrationStatus_spec (fun s => s) [⟨"001_a", "STALE", 1⟩]
      ⟨"U", "D", "001_a"⟩).2.1 ⟨"001_a", "STALE", 1⟩ (by rfl)
    simpa using h
  · have h := (migrationStatus_spec (fun s => s) [⟨"001_a", "UD", 1⟩]
      ⟨"U", "D", "001_a"⟩).2.1 ⟨"001_a", "UD", 1⟩ (by rfl)
    simpa using h
  · exact (migrationStatus_spec (fun s => s) [] ⟨"U", "D", "001_a"⟩).1 rfl

/-- C4 counterexample.  A drifted, already-applied migration in a
forward run (`force = false`, logger present): the status oracle reports
`(hasRun, hasDrifted) = (true, true)`, yet the run skips the migration
before the drift check and emits NO warning — the final log is just the
registered-count line — refuting the claim that every drifted definition
gets a warning in a forward run. -/
theorem forward_run_drift_emits_no_warning :
    migrationStatusCore (fun s => s) ⟨"U", "D", "001_a"⟩
        (queryRowByName [⟨"001_a", "STALE", 1⟩] "001_a") = .ok (true, true) ∧
    runLatest (fun s => s) (fun _ => true) false false true
        [⟨"U", "D", "001_a"⟩] [⟨"001_a", "STALE", 1⟩] =
      .ok ⟨[⟨"001_a", "STALE", 1⟩], [.registeredCount 1], []⟩ ∧
    LogEntry.warnChanged "001_a" ∉ [LogEntry.registeredCount 1] := by
  refine ⟨rfl, rfl, by simp⟩

/-- C4 amended.  Forward runs never emit a drift warning at all (an
already-run migration is skipped before the drift check, and an unrun one
cannot be drifted), and drift never blocks a forward run — when every
script execution succeeds the run completes.  During rollback the
asymmetry claimed does hold: a stored/current hash mismatch with
`force = false` aborts the whole batch rollback with the hash-changed
panic, while `force = true` bypasses the hash check and the rollback of
the batch always completes. -/
theorem drift_handling_asymmetry :
    ∀ (digest : String → String) (exec : String → Bool) (force logger : Bool)
      (order regs : List Migration) (ledger : Ledger) (st0 : RunState)
      (batchID : Int),
      (∀ st n, runLatest digest exec false force logger order ledger = .ok st →
        LogEntry.warnChanged n ∉ st.logs) ∧
      ((∀ s, exec s = true) →
        ∃ st, runLatest digest exec false force logger order ledger = .ok st) ∧
      ((∃ rec ∈ st0.ledger, rec.batch = batchID ∧ ∃ m ∈ regs,
          m.name = rec.name ∧ hashWith digest m ≠ rec.sqlHash) →
        ∃ n, rollbackOneBatch digest regs false logger batchID st0 =
          .error (.panicHashChanged n)) ∧
      ∃ st', rollbackOneBatch digest regs true logger batchID st0 = .ok st' := by
  intro digest exec force logger order regs ledger st0 batchID
  refine ⟨?_, ?_, ?_, rollbackOneBatch_force_ok digest regs logger batchID st0⟩
  · intro st n h
    refine runList_forward_logs_no_warn digest exec force logger
      (latestBatch ledger + 1) order
      ⟨ledger, if logger then [.registeredCount order.length] else [], []⟩
      st n h ?_
    cases logger <;> simp
  · intro hexec
    exact runList_forward_all_exec_ok digest exec force logger
      (latestBatch ledger + 1) hexec order
      ⟨ledger, if logger then [.registeredCount order.length] else [], []⟩
  · intro ⟨rec, hmem, hbatch, hcond⟩
    exact rollbackRows_mismatch digest regs logger
      (batchRows st0.ledger batchID) st0
      ⟨rec, List.mem_filter.mpr ⟨hmem, by simp [hbatch]⟩, hcond⟩

/-- C4 witness: the amended theorem applied at concrete inputs — a
forward run whose final log is warning-free, a drifted batch rollback
aborting without `force`, and the same rollback completing with
`force = true`. -/
theorem drift_handling_asymmetry_witness :
    LogEntry.warnChanged "001_a" ∉
      (RunState.mk [⟨"001_a", "STALE", 1⟩] [.registeredCount 1] []).logs ∧
    (∃ n, rollbackOneBatch (fun s => s) [⟨"U", "D", "001_a"⟩] false true 1
        ⟨[⟨"001_a", "STALE", 1⟩], [], []⟩ = .error (.panicHashChanged n)) ∧
    ∃ st', rollbackOneBatch (fun s => s) [⟨"U", "D", "001_a"⟩] true true 1
        ⟨[⟨"001_a", "STALE", 1⟩], [], []⟩ = .ok st' := by
  refine ⟨?_, ?_, ?_⟩
  · exact (drift_handling_asymmetry (fun s => s) (fun _ => true) false true
      [⟨"U", "D", "001_a"⟩] [] [⟨"001_a", "STALE", 1⟩]
      ⟨[], [], []⟩ 0).1 _ "001_a" (by rfl)
  · exact (drift_handling_asymmetry (fun s => s) (fun _ => true) false true
      [] [⟨"U", "D", "001_a"⟩] [] ⟨[⟨"001_a", "STALE", 1⟩], [], []⟩ 1).2.2.1
      ⟨⟨"001_a", "STALE", 1⟩, by simp, rfl, ⟨"U", "D", "001_a"⟩, by simp,
        rfl, by decide⟩
  · exact (drift_handling_asymmetry (fun s => s) (fun _ => true) true true
      [] [⟨"U", "D", "001_a"⟩] [] ⟨[⟨"001_a", "STALE", 1⟩], [], []⟩ 1).2.2.2

/-- C7.  Idempotence of forward runs with `force = false`: after a
successful forward run, a repeated forward run over the same registry
(any list whose members all ran before, e.g. the re-sorted registry)
skips every definition as already applied, executes zero scripts, and
leaves the ledger unchanged. -/
theorem runLatest_forward_idempotent :
    ∀ (digest : String → String) (exec : String → Bool) (logger : Bool)
      (order order2 : List Migration) (ledger : Ledger) (st1 : RunState),
      runLatest digest exec false false logger order ledger = .ok st1 →
      (∀ m ∈ order2, m ∈ order) →
      runLatest digest exec false false logger order2 st1.ledger =
        .ok ⟨st1.ledger,
          if logger then [.registeredCount order2.length] else [], []⟩ := by
  intro digest exec logger order order2 ledger st1 h1 hsub
  have hrec : ∀ m ∈ order, ∃ r ∈ st1.ledger, r.name = m.name :=
    runList_forward_records digest exec false logger (latestBatch ledger + 1)
      order ⟨ledger, if logger then [.registeredCount order.length] else [], []⟩
      st1 h1
  exact runList_forward_skip_all digest exec false logger
    (latestBatch st1.ledger + 1) order2
    ⟨st1.ledger, if logger then [.registeredCount order2.length] else [], []⟩
    (fun m hm => hrec m (hsub m hm))

/-- C7 witness: after the concrete successful forward run that applied
`001_a`, the repeated forward run executes nothing and leaves the ledger
unchanged. -/
theorem runLatest_forward_idempotent_witness :
    runLatest (fun s => s) (fun _ => true) false false true
        [⟨"U", "D", "001_a"⟩] [⟨"001_a", "UD", 1⟩] =
      .ok ⟨[⟨"001_a", "UD", 1⟩], [.registeredCount 1], []⟩ := by
  have h := runLatest_forward_idempotent (fun s => s) (fun _ => true) true
    [⟨"U", "D", "001_a"⟩] [⟨"U", "D", "001_a"⟩] []
    ⟨[⟨"001_a", "UD", 1⟩], [.registeredCount 1, .migrateUp "001_a"], ["U"]⟩
    (by rfl) (fun m hm => hm)
  simpa using h

/-- C8 counterexample.  `sort.Slice` promises only a sorted permutation —
its documentation explicitly withholds stability.  For a registry with
two distinct definitions sharing one name, BOTH orders satisfy the sort
contract, so a conforming execution order may swap equal-named
definitions (violating "equal names keep their registration order") and
two conforming runs may disagree (violating determinism). -/
theorem sortContract_violates_stability :
    SortSpecGo false [⟨"u1", "d1", "00a"⟩, ⟨"u2", "d2", "00a"⟩]
        [⟨"u2", "d2", "00a"⟩, ⟨"u1", "d1", "00a"⟩] ∧
    SortSpecGo false [⟨"u1", "d1", "00a"⟩, ⟨"u2", "d2", "00a"⟩]
        [⟨"u1", "d1", "00a"⟩, ⟨"u2", "d2", "00a"⟩] ∧
    ([⟨"u2", "d2", "00a"⟩, ⟨"u1", "d1", "00a"⟩] : List Migration) ≠
      [⟨"u1", "d1", "00a"⟩, ⟨"u2", "d2", "00a"⟩] := by
  refine ⟨⟨List.Perm.swap _ _ _, ?_⟩, ⟨List.Perm.refl _, ?_⟩, ?_⟩ <;>
    simp [List.pairwise_cons, goLess]

/-- C8 amended.  The execution order is a sorted permutation of the
registry under the name comparison — ascending for forward runs,
descending for reverse.  When the registered names are pairwise distinct
this determines the order uniquely (so it is deterministic, and
stability is vacuous); with duplicate names `sort.Slice` guarantees no
stability and the relative order of equal names is unspecified. -/
theorem execution_order_unique_of_nodup_names :
    ∀ (down : Bool) (input out1 out2 : List Migration),
      (input.map (fun m => m.name)).Nodup →
      SortSpecGo down input out1 → SortSpecGo down input out2 →
      out1 = out2 ∧
      out1.Pairwise (fun a b =>
        if down then b.name < a.name else a.name < b.name) := by
  intro down input out1 out2 hnodup h1 h2
  cases down with
  | false =>
    have strict : ∀ out : List Migration, SortSpecGo false input out →
        out.Pairwise (fun a b => a.name < b.name) := by
      intro out ⟨hperm, hpw⟩
      have hnd : (out.map (fun m => m.name)).Nodup :=
        ((hperm.map (fun m => m.name)).nodup_iff).mpr hnodup
      have hne : out.Pairwise (fun a b => a.name ≠ b.name) :=
        List.pairwise_map.mp hnd
      refine (hpw.and hne).imp ?_
      intro a b ⟨hab, hne'⟩
      simp only [goLess, if_neg, Bool.false_eq_true, if_false,
        decide_eq_false_iff_not] at hab
      exact lt_of_le_of_ne (le_of_not_lt hab) hne'
    haveI : IsAntisymm Migration (fun a b => a.name < b.name) :=
      ⟨fun a b hab hba => absurd hab (lt_asymm hba)⟩
    have s1 := strict out1 h1
    have s2 := strict out2 h2
    refine ⟨List.eq_of_perm_of_sorted (h1.1.trans h2.1.symm) s1 s2, ?_⟩
    simpa using s1
  | true =>
    have strict : ∀ out : List Migration, SortSpecGo true input out →
        out.Pairwise (fun a b => b.name < a.name) := by
      intro out ⟨hperm, hpw⟩
      have hnd : (out.map (fun m => m.name)).Nodup :=
        ((hperm.map (fun m => m.name)).nodup_iff).mpr hnodup
      have hne : out.Pairwise (fun a b => a.name ≠ b.name) :=
        List.pairwise_map.mp hnd
      refine (hpw.and hne).imp ?_
      intro a b ⟨hab, hne'⟩
      simp only [goLess, if_pos, decide_eq_false_iff_not] at hab
      exact lt_of_le_of_ne (le_of_not_lt hab) (Ne.symm hne')
    haveI : IsAntisymm Migration (fun a b => b.name < a.name) :=
      ⟨fun a b hab hba => absurd hab (lt_asymm hba)⟩
    have s1 := strict out1 h1
    have s2 := strict out2 h2
    refine ⟨List.eq_of_perm_of_sorted (h1.1.trans h2.1.symm) s1 s2, ?_⟩
    simpa using s1

/-- C8 witness: the amended theorem applied to a singleton registry with
a (trivially) duplicate-free set of names. -/
theorem execution_order_unique_witness :
    ([⟨"U", "D", "001_a"⟩] : List Migration) = [⟨"U", "D", "001_a"⟩] ∧
    ([(⟨"U", "D", "001_a"⟩ : Migration)]).Pairwise (fun a b =>
      if false then b.name < a.name else a.name < b.name) :=
  execution_order_unique_of_nodup_names false
    [⟨"U", "D", "001_a"⟩] [⟨"U", "D", "001_a"⟩] [⟨"U", "D", "001_a"⟩]
    (by simp) ⟨List.Perm.refl _, by simp⟩ ⟨List.Perm.refl _, by simp⟩

/-- C9 counterexample.  A forward run that applies zero migrations (its
only registered definition is already recorded) completes successfully
yet does not increment `latestBatch`: it stays 1 where the claim demands
it become 2. -/
theorem second_forward_run_no_increment :
    runLatest (fun s => s) (fun _ => true) false false true
        [⟨"U", "D", "001_a"⟩] [⟨"001_a", "UD", 1⟩] =
      .ok ⟨[⟨"001_a", "UD", 1⟩], [.registeredCount 1], []⟩ ∧
    latestBatch [⟨"001_a", "UD", 1⟩] = 1 ∧
    (RunState.mk [⟨"001_a", "UD", 1⟩] [.registeredCount 1] []).ledger =
      [⟨"001_a", "UD", 1⟩] := by
  exact ⟨rfl, rfl, rfl⟩

/-- C9 amended.  `latestBatch` is 0 on an empty ledger and the maximum
recorded batch number otherwise; a forward run stamps every record it
inserts with `latestBatch() + 1`; consequently a forward run that records
at least one migration raises `latestBatch` by exactly 1 (so it is 1
after a first such run), while a forward run that records none leaves it
unchanged. -/
theorem latestBatch_spec :
    ∀ (digest : String → String) (exec : String → Bool) (force logger : Bool)
      (order : List Migration) (ledger : Ledger) (st : RunState),
      latestBatch ([] : Ledger) = 0 ∧
      (∀ r ∈ ledger, r.batch ≤ latestBatch ledger) ∧
      (ledger ≠ [] → ∃ r ∈ ledger, r.batch = latestBatch ledger) ∧
      (runLatest digest exec false force logger order ledger = .ok st →
        ∃ ext, st.ledger = ledger ++ ext ∧
          (∀ r ∈ ext, r.batch = latestBatch ledger + 1) ∧
          (ext = [] → latestBatch st.ledger = latestBatch ledger) ∧
          (ext ≠ [] → latestBatch st.ledger = latestBatch ledger + 1)) := by
  intro digest exec force logger order ledger st
  refine ⟨rfl, latestBatch_le ledger, latestBatch_mem ledger, ?_⟩
  intro h
  obtain ⟨ext, he, hb⟩ := runList_forward_ledger_ext digest exec force logger
    (latestBatch ledger + 1) order
    ⟨ledger, if logger then [.registeredCount order.length] else [], []⟩ st h
  refine ⟨ext, he, hb, ?_, ?_⟩
  · intro hnil
    rw [he, hnil, List.append_nil]
  · intro hne
    rw [he]
    by_cases hl : ledger = []
    · subst hl
      rw [List.nil_append, latestBatch_const ext _ hne hb]
    · rw [latestBatch_append ledger ext hl hne,
        latestBatch_const ext _ hne hb]
      exact max_eq_right (by omega)

/-- C9 witness: the amended theorem applied to the concrete first forward
run from an empty ledger, which records `001_a` in batch 1. -/
theorem latestBatch_spec_witness :
    ∃ ext,
      (RunState.mk [⟨"001_a", "UD", 1⟩]
        [.registeredCount 1, .migrateUp "001_a"] ["U"]).ledger =
        [] ++ ext ∧
      (∀ r ∈ ext, r.batch = latestBatch [] + 1) ∧
      (ext = [] → latestBatch (RunState.mk [⟨"001_a", "UD", 1⟩]
        [.registeredCount 1, .migrateUp "001_a"] ["U"]).ledger =
        latestBatch []) ∧
      (ext ≠ [] → latestBatch (RunState.mk [⟨"001_a", "UD", 1⟩]
        [.registeredCount 1, .migrateUp "001_a"] ["U"]).ledger =
        latestBatch [] + 1) :=
  (latestBatch_spec (fun s => s) (fun _ => true) false true
    [⟨"U", "D", "001_a"⟩] []
    ⟨[⟨"001_a", "UD", 1⟩], [.registeredCount 1, .migrateUp "001_a"], ["U"]⟩
    ).2.2.2 (by rfl)

/-- C10.  Totality bound of `Rollback` in `numBatches`: a completing
(`ok`) call implies `numBatches` is at most the number of distinct
batches plus one, and with `force = true` (so that no earlier hash panic
can intervene) any `numBatches` with `numBatches - 1` exceeding the
distinct-batch count faults with an out-of-range index into the batch
slice. -/
theorem rollback_index_out_of_bounds :
    ∀ (digest : String → String) (regs : List Migration) (ledger : Ledger)
      (numBatches : Int) (force logger : Bool) (st : RunState),
      (Rollback digest regs ledger numBatches force logger = .ok st →
        numBatches ≤ (allBatches ledger).length + 1) ∧
      (force = true → ((allBatches ledger).length : Int) < numBatches - 1 →
        Rollback digest regs ledger numBatches force logger =
          .error .indexOutOfRange) := by
  intro digest regs ledger numBatches force logger st
  constructor
  · intro h
    rcases rollbackLoop_ok_le digest regs force logger (allBatches ledger)
      ((numBatches - 1).toNat) 0 ⟨ledger, [], []⟩ st h with h0 | hle
    · omega
    · omega
  · intro hf hlt
    subst hf
    exact rollbackLoop_force_oob digest regs logger (allBatches ledger)
      ((numBatches - 1).toNat) 0 ⟨ledger, [], []⟩ (by omega) (by omega)

/-- C10 witness: on a single-batch ledger, requesting 3 batches with
`force = true` faults out of range, while requesting 2 completes and the
bound 2 ≤ 1 + 1 is confirmed through the theorem. -/
theorem rollback_index_out_of_bounds_witness :
    Rollback (fun s => s) [] [⟨"001_a", "H", 1⟩] 3 true false =
      .error .indexOutOfRange ∧
    (3 : Int) ≤ ((allBatches [(⟨"001_a", "H", 1⟩ : LedgerRecord)]).length : Int) + 1 + 1 ∧
    (2 : Int) ≤ ((allBatches [(⟨"001_a", "H", 1⟩ : LedgerRecord)]).length : Int) + 1 := by
  refine ⟨?_, by decide, ?_⟩
  · exact (rollback_index_out_of_bounds (fun s => s) [] [⟨"001_a", "H", 1⟩]
      3 true false ⟨[⟨"001_a", "H", 1⟩], [], []⟩).2 rfl (by decide)
  · exact (rollback_index_out_of_bounds (fun s => s) [] [⟨"001_a", "H", 1⟩]
      2 false false ⟨[⟨"001_a", "H", 1⟩], [], []⟩).1 (by rfl)

end Moogration
